import Mathlib

/-!
Verification development for the audio/video composition engine of the
reddit-content-bot repository.  The Python source (src/media.py and
src/transcribe.py) is shallowly embedded below: dictionaries with numeric
"start"/"end"/"text" keys become structures over exact rationals (rational
arithmetic models ideal floating-point arithmetic, so statements that the
spec phrases "within floating rounding tolerance" become exact equalities),
imperative loops become structural recursions or folds, and the effectful
pipeline (subprocess spawning, file writes) becomes a pure function from an
abstract external world (file-existence predicate, probe process result,
per-invocation tool success) to a trace of the observable actions.
-/

/-- ASCII apostrophe, written by code point. -/
def apos : Char := Char.ofNat 39

/-- ASCII double quote, written by code point. -/
def dquote : Char := Char.ofNat 34

/-- Left brace, written by code point. -/
def lbrace : Char := Char.ofNat 123

/-- Right brace, written by code point. -/
def rbrace : Char := Char.ofNat 125

/-- Models Python `str.strip()`: remove leading and trailing whitespace.
(Defined by structural recursion over the character list so that concrete
instances reduce in the kernel; `String.trim` recurses on byte
positions.) -/
def pyStrip (s : String) : String :=
  String.mk
    (((s.data.dropWhile Char.isWhitespace).reverse.dropWhile
      Char.isWhitespace).reverse)

/-- TimedWord: `{"text": str, "start": float, "end": float}` as produced by
the transcription collaborator (src/transcribe.py). -/
structure TimedWord where
  text : String
  start : ℚ
  «end» : ℚ
deriving DecidableEq, Repr

/-- CaptionEvent: `{"start": float, "end": float, "text": str}` as produced
by the chunking strategies in src/transcribe.py. -/
structure CaptionEvent where
  start : ℚ
  «end» : ℚ
  text : String
deriving DecidableEq, Repr

/-- Fixed-size chunking of a list, embedding the slicing pattern
`chunk = xs[idx : idx + max(1, k)]; idx += len(chunk)` shared by
`words_to_ass_events` (src/transcribe.py lines 62-64), the sentence
sub-chunking loop (lines 136-138) and `_write_centered_ass`
(src/media.py lines 405-407). -/
def chunkList (k : Nat) : List α → List (List α)
  | [] => []
  | x :: t =>
    (x :: t.take (max 1 k - 1)) :: chunkList k (t.drop (max 1 k - 1))
termination_by l => l.length
decreasing_by
  simp only [List.length_cons, List.length_drop]
  omega

/-- Event built from one chunk in `words_to_ass_events`
(src/transcribe.py lines 67-70): `start = chunk[0].start`,
`end = chunk[-1].end if chunk[-1].end >= start else start`,
`text = " ".join(words).strip()`.  The `[]` case is unreachable in the
source (`if not chunk: break`). -/
def mkAssChunkEvent : List TimedWord → CaptionEvent
  | [] => ⟨0, 0, ""⟩
  | w :: ws =>
    let start := w.start
    let last := (w :: ws).getLast (List.cons_ne_nil w ws)
    ⟨start,
     if last.«end» ≥ start then last.«end» else start,
     pyStrip (String.intercalate " " ((w :: ws).map TimedWord.text))⟩

/-- `words_to_ass_events` (src/transcribe.py lines 53-71): group words into
fixed-size chunks and emit one event per chunk. -/
def words_to_ass_events (words : List TimedWord) (words_per_chunk : Nat) :
    List CaptionEvent :=
  (chunkList words_per_chunk words).map mkAssChunkEvent

/-- `is_end_token` (src/transcribe.py lines 117-119): a token is a sentence
terminal if its stripped form is one of `. ? ! .” !” ?” …`. -/
def is_end_token (tok : String) : Bool :=
  let t := pyStrip tok
  t = "." || t = "?" || t = "!" || t = ".”" || t = "!”" || t = "?”" || t = "…"

/-- Loop of src/transcribe.py lines 123-130: partition the word list into
sentences, closing the current sentence right after each end token.
`current` is the (forward) list of words accumulated for the open
sentence. -/
def sentenceSplitAux (current : List TimedWord) :
    List TimedWord → List (List TimedWord)
  | [] => if current.isEmpty then [] else [current]
  | w :: ws =>
    if is_end_token w.text then
      (current ++ [w]) :: sentenceSplitAux [] ws
    else
      sentenceSplitAux (current ++ [w]) ws

/-- Sentence partition entry point (src/transcribe.py lines 121-130). -/
def sentenceSplit (words : List TimedWord) : List (List TimedWord) :=
  sentenceSplitAux [] words

/-- The word chunks underlying `words_to_sentence_chunk_events`: each
sentence is independently cut into chunks of at most
`max 1 max_words_per_event` words (src/transcribe.py lines 133-138). -/
def sentenceChunksOf (max_words_per_event : Nat) (words : List TimedWord) :
    List (List TimedWord) :=
  ((sentenceSplit words).map (chunkList max_words_per_event)).flatten

/-- Event built from one sentence-bounded chunk (src/transcribe.py lines
139-142): `start = chunk[0].start if chunk else 0.0`,
`end = chunk[-1].end if chunk else start`, joined stripped text. -/
def mkSentEvent : List TimedWord → CaptionEvent
  | [] => ⟨0, 0, ""⟩
  | w :: ws =>
    ⟨w.start,
     ((w :: ws).getLast (List.cons_ne_nil w ws)).«end»,
     pyStrip (String.intercalate " " ((w :: ws).map TimedWord.text))⟩

/-- `words_to_sentence_chunk_events` (src/transcribe.py lines 105-144). -/
def words_to_sentence_chunk_events (words : List TimedWord)
    (max_words_per_event : Nat) : List CaptionEvent :=
  (sentenceChunksOf max_words_per_event words).map mkSentEvent

/-- Character class of `is_punct` in `words_to_single_word_events`
(src/transcribe.py line 155): `.,!?;:-–—()[]"“”'’`. -/
def single_word_punct_chars : List Char :=
  ['.', ',', '!', '?', ';', ':', '-', '–', '—', '(', ')', '[', ']',
   dquote, '“', '”', apos, '’']

/-- `is_punct` (src/transcribe.py lines 153-155): the stripped token is
nonempty and consists only of punctuation characters. -/
def is_punct (token : String) : Bool :=
  let t := pyStrip token
  !t.data.isEmpty && t.data.all (fun c => single_word_punct_chars.contains c)

/-- One iteration of the loop of `words_to_single_word_events`
(src/transcribe.py lines 157-172).  A punctuation-only token with a
preceding event is appended to that event's text and the event's end is
set to the token's end; otherwise a fresh event is emitted (empty tokens
are skipped). -/
def singleWordStep (events : List CaptionEvent) (w : TimedWord) :
    List CaptionEvent :=
  let token := pyStrip w.text
  if token.data.isEmpty then events
  else if is_punct token then
    match events.getLast? with
    | some last =>
      events.dropLast ++ [⟨last.start, w.«end», last.text ++ token⟩]
    | none => events ++ [⟨w.start, w.«end», token⟩]
  else events ++ [⟨w.start, w.«end», token⟩]

/-- `words_to_single_word_events` (src/transcribe.py lines 147-174). -/
def words_to_single_word_events (words : List TimedWord) :
    List CaptionEvent :=
  words.foldl singleWordStep []

/-! ## media.py: proportional interval allocation -/

/-- The shared cursor loop of `_write_proportional_srt`
(src/media.py lines 515-521) and `_write_centered_ass` (lines 402-412):
given the precomputed per-unit durations `total * weight`, emit
`(start, end)` with `start = cursor`, `end = min(total, start + dur)` and
advance the cursor to `end`. -/
def propIntervalsAux (total : ℚ) (cursor : ℚ) : List ℚ → List (ℚ × ℚ)
  | [] => []
  | d :: ds =>
    let e := min total (cursor + d)
    (cursor, e) :: propIntervalsAux total e ds

/-- Characters the sentence-split regex `(?<=[.!?])\s+`
(src/media.py line 536) looks behind for. -/
def isSentSplitPunct (c : Char) : Bool :=
  c = '.' || c = '!' || c = '?'

/-- Scanner for `re.split(r"(?<=[.!?])\s+", text)` (src/media.py line 543):
a whitespace character whose immediately preceding character is `.`, `!` or
`?` starts a separator; the whole whitespace run is consumed.  `cur` holds
the characters of the open fragment in reverse order, so the lookbehind
character is its head. -/
def regexSplitAux (cur : List Char) : List Char → List String
  | [] => [String.mk cur.reverse]
  | c :: cs =>
    if c.isWhitespace &&
        (match cur with
         | p :: _ => isSentSplitPunct p
         | [] => false) then
      String.mk cur.reverse :: regexSplitAux [] (cs.dropWhile Char.isWhitespace)
    else
      regexSplitAux (c :: cur) cs
termination_by l => l.length
decreasing_by
  · have := (List.dropWhile_sublist (l := cs) Char.isWhitespace).length_le
    simp only [List.length_cons]
    omega
  · simp

/-- Merge loop of `_split_into_sentences` (src/media.py lines 545-550):
a fragment shorter than 10 characters is glued (with a space) onto the
last sentence collected so far. -/
def mergeShortStep (merged : List String) (part : String) : List String :=
  match merged.getLast? with
  | some lastS =>
    if part.length < 10 then
      merged.dropLast ++ [lastS ++ " " ++ part]
    else
      merged ++ [part]
  | none => [part]

/-- `_split_into_sentences` (src/media.py lines 539-551). -/
def _split_into_sentences (text : String) : List String :=
  let t := pyStrip text
  if t.data.isEmpty then []
  else (regexSplitAux [] t.data).foldl mergeShortStep []

/-- Sentence list used by `_write_proportional_srt`
(src/media.py lines 499-501): the split result, or the stripped text as a
single sentence when the split is empty. -/
def srtSentencesOf (text : String) : List String :=
  let s := _split_into_sentences text
  if s.isEmpty then [pyStrip text] else s

/-- `total_chars` of `_write_proportional_srt` (src/media.py line 502):
`sum(len(s) for s in sentences) or 1`. -/
def srtTotalChars (sentences : List String) : ℚ :=
  let n := (sentences.map String.length).sum
  if n = 0 then 1 else (n : ℚ)

/-- The `(start, end)` intervals written by `_write_proportional_srt`
(src/media.py lines 491-533); the k-th sentence gets duration
`total_seconds * len(sentence) / total_chars`. -/
def srt_intervals (text : String) (total_seconds : ℚ) : List (ℚ × ℚ) :=
  let sentences := srtSentencesOf text
  let tc := srtTotalChars sentences
  propIntervalsAux total_seconds 0
    (sentences.map (fun s => total_seconds * ((s.length : ℚ) / tc)))

/-! ## media.py: word tokenizer for the styled renderer -/

/-- `\w` of the tokenizer regex (src/media.py line 424), over ASCII. -/
def isWordChar (c : Char) : Bool :=
  c.isAlphanum || c = '_'

/-- Punctuation class of the tokenizer regex (src/media.py line 424):
`[.,!?;:\-–—()\[\]"“”]+`. -/
def tokenizer_punct_chars : List Char :=
  ['.', ',', '!', '?', ';', ':', '-', '–', '—', '(', ')', '[', ']',
   dquote, '“', '”']

/-- Scanner for `_WORD_RE.finditer` (src/media.py lines 424-428) with the
pattern `\w+['’]?\w*|[punct]+`: at each position, greedily match a word run
with an optional internal apostrophe, else a punctuation run, else skip the
character. -/
def tokenizeAux : List Char → List String
  | [] => []
  | c :: cs =>
    if hw : isWordChar c then
      match h1 : (c :: cs).dropWhile isWordChar with
      | q :: r2 =>
        if q = apos || q = '’' then
          String.mk ((c :: cs).takeWhile isWordChar ++ q :: r2.takeWhile isWordChar) ::
            tokenizeAux (r2.dropWhile isWordChar)
        else
          String.mk ((c :: cs).takeWhile isWordChar) :: tokenizeAux (q :: r2)
      | [] => [String.mk ((c :: cs).takeWhile isWordChar)]
    else if hc : tokenizer_punct_chars.contains c then
      String.mk ((c :: cs).takeWhile (fun x => tokenizer_punct_chars.contains x)) ::
        tokenizeAux ((c :: cs).dropWhile (fun x => tokenizer_punct_chars.contains x))
    else
      tokenizeAux cs
termination_by l => l.length
decreasing_by
  · have h2 : (cs.dropWhile isWordChar).length ≤ cs.length :=
      (List.dropWhile_sublist (l := cs) isWordChar).length_le
    rw [List.dropWhile_cons, if_pos hw] at h1
    have h3 : (q :: r2).length ≤ cs.length := h1 ▸ h2
    have h4 := (List.dropWhile_sublist (l := r2) isWordChar).length_le
    simp only [List.length_cons] at h3 ⊢
    omega
  · have h2 : (cs.dropWhile isWordChar).length ≤ cs.length :=
      (List.dropWhile_sublist (l := cs) isWordChar).length_le
    rw [List.dropWhile_cons, if_pos hw] at h1
    have h3 : (q :: r2).length ≤ cs.length := h1 ▸ h2
    simp only [List.length_cons] at h3 ⊢
    omega
  · have h6 := (List.dropWhile_sublist (l := cs)
      (fun x => tokenizer_punct_chars.contains x)).length_le
    rw [List.dropWhile_cons]
    simp only [hc, if_true, List.length_cons]
    omega
  · simp

/-- `_tokenize_words` (src/media.py lines 427-428). -/
def _tokenize_words (text : String) : List String :=
  tokenizeAux (pyStrip text).data

/-- Word list used by `_write_centered_ass` (src/media.py lines 366-368):
tokenizer output, or the stripped text as a single word when empty. -/
def assWordsOf (text : String) : List String :=
  let ws := _tokenize_words text
  if ws.isEmpty then [pyStrip text] else ws

/-- `total_words` of `_write_centered_ass` (src/media.py lines 369-371). -/
def assTotalWords (words : List String) : ℚ :=
  if words.length = 0 then 1 else (words.length : ℚ)

/-- The `(start, end)` intervals written by `_write_centered_ass`
(src/media.py lines 348-421); each chunk of `max(1, words_per_chunk)`
words gets duration `total_seconds * len(chunk) / total_words`. -/
def ass_chunk_intervals (text : String) (total_seconds : ℚ)
    (words_per_chunk : Nat) : List (ℚ × ℚ) :=
  let words := assWordsOf text
  let tw := assTotalWords words
  propIntervalsAux total_seconds 0
    ((chunkList words_per_chunk words).map
      (fun c => total_seconds * ((c.length : ℚ) / tw)))

/-! ## media.py: ASS text escaping -/

/-- `_escape_ass_text` (src/media.py lines 431-433):
`text.replace("{", "(").replace("}", ")")`, character by character. -/
def _escape_ass_text (text : String) : String :=
  String.mk
    ((text.data.map (fun c => if c = lbrace then '(' else c)).map
      (fun c => if c = rbrace then ')' else c))

/-- Text payload of a Dialogue line in `_write_centered_ass_events`
(src/media.py line 482): `_escape_ass_text(str(ev.get("text", "")).strip())`. -/
def assDialoguePayloadOfEvent (ev : CaptionEvent) : String :=
  _escape_ass_text (pyStrip ev.text)

/-- Text payload of a Dialogue line in `_write_centered_ass`
(src/media.py line 414): `_escape_ass_text(" ".join(chunk))`. -/
def assDialoguePayloadOfChunk (chunk : List String) : String :=
  _escape_ass_text (String.intercalate " " chunk)

/-! ## media.py: duration probe -/

/-- Outcome of one subprocess run: exit status and captured stdout. -/
structure ProcResult where
  returncode : Int
  stdout : String
deriving DecidableEq, Repr

/-- Digits-to-number accumulator for `pyFloat?`. -/
def digitsVal (ds : List Char) : Nat :=
  ds.foldl (fun acc c => 10 * acc + c.toNat - 48) 0

/-- Models Python `float(s)` on plain decimal literals:
`[+-]? (digits [. digits*] | . digits)`.  (`float` also accepts
exponents, `inf`/`nan` and underscores, irrelevant to the probe claims.)
Returns `none` exactly when Python would raise `ValueError` on such
input. -/
def pyFloat? (s : String) : Option ℚ :=
  let core : List Char → Option ℚ := fun cs =>
    let intPart := cs.takeWhile Char.isDigit
    match cs.dropWhile Char.isDigit with
    | [] => if intPart.isEmpty then none else some (digitsVal intPart : ℚ)
    | '.' :: frac =>
      let fracPart := frac.takeWhile Char.isDigit
      if !(frac.dropWhile Char.isDigit).isEmpty then none
      else if intPart.isEmpty && fracPart.isEmpty then none
      else some ((digitsVal intPart : ℚ) +
        (digitsVal fracPart : ℚ) / ((10 : ℚ) ^ fracPart.length))
    | _ => none
  match s.data with
  | '-' :: rest => (core rest).map Neg.neg
  | '+' :: rest => core rest
  | rest => core rest

/-- Failure cases of `_probe_duration_seconds`: the probe tool exited
non-zero, or its output could not be parsed as a float. -/
inductive ProbeError where
  | toolFailed
  | unparseable
deriving DecidableEq, Repr

/-- `_probe_duration_seconds` (src/media.py lines 15-32), as a function of
the outcome of the `ffprobe` subprocess: raise on a non-zero exit, else
return `float(stdout.strip())`, raising when the parse fails.  The
function performs no file-existence check of its own. -/
def _probe_duration_seconds (r : ProcResult) : Except ProbeError ℚ :=
  if r.returncode ≠ 0 then .error .toolFailed
  else
    match pyFloat? (pyStrip r.stdout) with
    | some v => .ok v
    | none => .error .unparseable

/-! ## media.py: composition pipeline model

`compose_video_with_speech` (src/media.py lines 35-345) is modelled as a
pure function of the external world: a file-existence predicate, the
result of the single `ffprobe` run, and the success of each `ffmpeg`
invocation (indexed in program order).  The result records the observable
behaviour the spec talks about: the error raised (if any), the ordered
list of subprocesses spawned, which subtitle artifacts were written and
from which input, and whether the output file was produced. -/

/-- Caption-affecting arguments of `compose_video_with_speech`
(src/media.py lines 35-70).  Style parameters are forwarded verbatim to
the renderers and do not influence control flow, so they are omitted. -/
structure ComposeArgs where
  speech_audio_path : String
  background_video_path : String
  background_music_path : String
  output_video_path : String
  playback_speed : ℚ
  captions_text : Option String
  burn_captions : Bool
  ass_captions_text : Option String
  ass_events : Option (List CaptionEvent)

/-- Python truthiness of an optional string argument
(`None` and `""` are falsy). -/
def strTruthy : Option String → Bool
  | none => false
  | some s => !s.data.isEmpty

/-- Python truthiness of an optional list argument
(`None` and `[]` are falsy). -/
def listTruthy : Option (List CaptionEvent) → Bool
  | none => false
  | some l => !l.isEmpty

/-- The subprocesses `compose_video_with_speech` can spawn, in source
order: the `ffprobe` duration query and the four `ffmpeg` invocations
(trim video, trim+attenuate music, mix, final mux).  The mux step records
which subtitle file is burned in (if any) and whether a playback-speed
filter is attached. -/
inductive Step where
  | probe (path : String)
  | trimVideo
  | trimMusic
  | mixAudio
  | muxBurnAss (speedAdjust : Bool)
  | muxBurnSrt (speedAdjust : Bool)
  | muxCopy
  | muxReencodeSpeed
deriving DecidableEq, Repr

/-- Source of the generated ASS subtitle artifact. -/
inductive AssSource where
  | fromEvents (events : List CaptionEvent)
  | fromText (text : String)
deriving DecidableEq, Repr

/-- Errors `compose_video_with_speech` can raise: the eager
`FileNotFoundError` checks, and `RuntimeError` from the probe or a failed
tool invocation. -/
inductive ComposeError where
  | fileNotFound (path : String)
  | probeFailed (e : ProbeError)
  | toolFailed (s : Step)
deriving DecidableEq, Repr

/-- Observable behaviour of one `compose_video_with_speech` call. -/
structure ComposeResult where
  error : Option ComposeError
  spawned : List Step
  srtWritten : Option String
  assWritten : Option AssSource
  outputWritten : Bool
deriving DecidableEq, Repr

/-- `compose_video_with_speech` (src/media.py lines 35-345).  Mirrors the
source's control flow: eager existence checks on the three inputs (lines
91-96), probe (line 98), video trim, music trim, audio mix (lines
110-177), conditional subtitle generation (lines 180-222: SRT if
`captions_text` is truthy; ASS from `ass_events` if truthy, else from
`ass_captions_text` if truthy), and the final mux (lines 225-343: burn the
ASS file when any ASS input is truthy and `burn_captions`, else burn the
SRT when `captions_text` is truthy and `burn_captions`, else plain mux
with stream copy exactly when `playback_speed == 1`). -/
def compose_video_with_speech (fs : String → Bool) (probeRes : ProcResult)
    (toolOk : Nat → Bool) (a : ComposeArgs) : ComposeResult :=
  if !fs a.speech_audio_path then
    ⟨some (.fileNotFound a.speech_audio_path), [], none, none, false⟩
  else if !fs a.background_video_path then
    ⟨some (.fileNotFound a.background_video_path), [], none, none, false⟩
  else if !fs a.background_music_path then
    ⟨some (.fileNotFound a.background_music_path), [], none, none, false⟩
  else
    match _probe_duration_seconds probeRes with
    | .error e =>
      ⟨some (.probeFailed e), [.probe a.speech_audio_path], none, none, false⟩
    | .ok _speech_duration =>
      if !toolOk 0 then
        ⟨some (.toolFailed .trimVideo),
         [.probe a.speech_audio_path, .trimVideo], none, none, false⟩
      else if !toolOk 1 then
        ⟨some (.toolFailed .trimMusic),
         [.probe a.speech_audio_path, .trimVideo, .trimMusic],
         none, none, false⟩
      else if !toolOk 2 then
        ⟨some (.toolFailed .mixAudio),
         [.probe a.speech_audio_path, .trimVideo, .trimMusic, .mixAudio],
         none, none, false⟩
      else
        let srtW : Option String :=
          if strTruthy a.captions_text then a.captions_text else none
        let assW : Option AssSource :=
          if listTruthy a.ass_events then
            some (.fromEvents (a.ass_events.getD []))
          else if strTruthy a.ass_captions_text then
            some (.fromText (a.ass_captions_text.getD ""))
          else none
        let muxStep : Step :=
          if (listTruthy a.ass_events || strTruthy a.ass_captions_text) &&
              a.burn_captions then
            .muxBurnAss (a.playback_speed ≠ 1)
          else if strTruthy a.captions_text && a.burn_captions then
            .muxBurnSrt (a.playback_speed ≠ 1)
          else if a.playback_speed = 1 then .muxCopy
          else .muxReencodeSpeed
        let spawnedAll :=
          [Step.probe a.speech_audio_path, .trimVideo, .trimMusic, .mixAudio,
           muxStep]
        if !toolOk 3 then
          ⟨some (.toolFailed muxStep), spawnedAll, srtW, assW, false⟩
        else
          ⟨none, spawnedAll, srtW, assW, true⟩

/-! ## Helper lemmas: proportional intervals -/

lemma min_shift (t x r : ℚ) (hr : 0 ≤ r) :
    min t (min t x + r) = min t (x + r) := by
  rcases le_total x t with h | h
  · rw [min_eq_right h]
  · rw [min_eq_left h, min_eq_left (by linarith), min_eq_left (by linarith)]

lemma propIntervalsAux_length (total : ℚ) :
    ∀ (ds : List ℚ) (c : ℚ), (propIntervalsAux total c ds).length = ds.length
  | [], _ => rfl
  | _ :: ds, c => by
    simp only [propIntervalsAux, List.length_cons]
    rw [propIntervalsAux_length total ds]

lemma propIntervalsAux_head (total c d : ℚ) (ds : List ℚ) :
    (propIntervalsAux total c (d :: ds)).head? = some (c, min total (c + d)) := by
  rfl

lemma propIntervalsAux_chain (total : ℚ) :
    ∀ (ds : List ℚ) (c : ℚ),
      List.Chain' (fun p q : ℚ × ℚ => p.2 = q.1) (propIntervalsAux total c ds)
  | [], _ => List.chain'_nil
  | d :: ds, c => by
    rw [propIntervalsAux, List.chain'_cons']
    refine ⟨?_, propIntervalsAux_chain total ds _⟩
    intro q hq
    cases ds with
    | nil => simp [propIntervalsAux] at hq
    | cons d' ds' =>
      rw [propIntervalsAux_head] at hq
      cases hq
      rfl

lemma propIntervalsAux_mem_le (total : ℚ) :
    ∀ (ds : List ℚ) (c : ℚ), (∀ d ∈ ds, 0 ≤ d) → c ≤ total →
      ∀ p ∈ propIntervalsAux total c ds, p.1 ≤ p.2 ∧ p.2 ≤ total
  | [], _, _, _, p, hp => by simp [propIntervalsAux] at hp
  | d :: ds, c, hds, hc, p, hp => by
    rw [propIntervalsAux, List.mem_cons] at hp
    have hd : 0 ≤ d := hds d (List.mem_cons_self d ds)
    have he : c ≤ min total (c + d) := le_min hc (by linarith)
    rcases hp with h | h
    · subst h
      exact ⟨he, min_le_left _ _⟩
    · exact propIntervalsAux_mem_le total ds _
        (fun x hx => hds x (List.mem_cons_of_mem d hx))
        (min_le_left _ _) p h

lemma propIntervalsAux_cons (total c d : ℚ) (ds : List ℚ) :
    propIntervalsAux total c (d :: ds) =
      (c, min total (c + d)) :: propIntervalsAux total (min total (c + d)) ds :=
  rfl

lemma propIntervalsAux_getLast (total : ℚ) :
    ∀ (ds : List ℚ) (c : ℚ), ds ≠ [] → (∀ d ∈ ds, 0 ≤ d) →
      ((propIntervalsAux total c ds).getLast?).map Prod.snd =
        some (min total (c + ds.sum))
  | [], _, h, _ => absurd rfl h
  | [d], c, _, _ => by
    simp [propIntervalsAux, List.getLast?]
  | d :: d' :: ds, c, _, hds => by
    have htail :
        ((propIntervalsAux total (min total (c + d)) (d' :: ds)).getLast?).map
          Prod.snd = some (min total (min total (c + d) + (d' :: ds).sum)) :=
      propIntervalsAux_getLast total (d' :: ds) (min total (c + d))
        (List.cons_ne_nil _ _)
        (fun x hx => hds x (List.mem_cons_of_mem d hx))
    have hsum : (0 : ℚ) ≤ (d' :: ds).sum :=
      List.sum_nonneg (fun x hx => hds x (List.mem_cons_of_mem d hx))
    rw [propIntervalsAux_cons total c d (d' :: ds),
      propIntervalsAux_cons total _ d' ds, List.getLast?_cons_cons,
      ← propIntervalsAux_cons total _ d' ds, htail,
      min_shift total (c + d) _ hsum, List.sum_cons, List.sum_cons,
      List.sum_cons]
    ring_nf

lemma sum_map_mul_div (t tc : ℚ) (f : α → ℚ) :
    ∀ l : List α, (l.map fun x => t * (f x / tc)).sum = t * ((l.map f).sum / tc)
  | [] => by simp
  | x :: l => by
    simp only [List.map_cons, List.sum_cons, sum_map_mul_div t tc f l]
    ring

lemma cast_sum_map (f : α → ℕ) (l : List α) :
    ((l.map f).sum : ℚ) = (l.map fun x => (f x : ℚ)).sum := by
  rw [Nat.cast_list_sum, List.map_map]
  rfl

lemma propIntervalsAux_head_fst (total c : ℚ) (ds : List ℚ) (h : ds ≠ []) :
    ((propIntervalsAux total c ds).head?).map Prod.fst = some c := by
  cases ds with
  | nil => exact absurd rfl h
  | cons d ds => rw [propIntervalsAux_head]; rfl

/-! ## Helper lemmas: chunkList -/

lemma chunkList_nil (k : Nat) : chunkList k ([] : List α) = [] := by
  rw [chunkList]

lemma chunkList_cons_eq (k : Nat) (x : α) (t : List α) :
    chunkList k (x :: t) =
      (x :: t.take (max 1 k - 1)) :: chunkList k (t.drop (max 1 k - 1)) := by
  rw [chunkList]

lemma chunkList_cons_of_ne_nil (k : Nat) (xs : List α) (h : xs ≠ []) :
    chunkList k xs = xs.take (max 1 k) :: chunkList k (xs.drop (max 1 k)) := by
  cases xs with
  | nil => exact absurd rfl h
  | cons x t =>
    rw [chunkList_cons_eq]
    have hm : max 1 k = (max 1 k - 1) + 1 := by omega
    congr 1
    · rw [hm, List.take_succ_cons]
      simp
    · rw [hm, List.drop_succ_cons]
      simp

lemma chunkList_eq_nil_iff (k : Nat) (xs : List α) :
    chunkList k xs = [] ↔ xs = [] := by
  cases xs with
  | nil => simp [chunkList_nil]
  | cons x t => simp [chunkList_cons_eq]

lemma chunkList_flatten (k : Nat) :
    ∀ xs : List α, (chunkList k xs).flatten = xs
  | [] => by simp [chunkList_nil]
  | x :: t => by
    rw [chunkList_cons_eq, List.flatten_cons,
      chunkList_flatten k (t.drop (max 1 k - 1))]
    simp [List.take_append_drop]
termination_by xs => xs.length
decreasing_by
  simp only [List.length_cons, List.length_drop]
  omega

lemma chunkList_mem_ne_nil (k : Nat) :
    ∀ (xs : List α), ∀ c ∈ chunkList k xs, c ≠ []
  | [], c, hc => by simp [chunkList_nil] at hc
  | x :: t, c, hc => by
    rw [chunkList_cons_eq, List.mem_cons] at hc
    rcases hc with h | h
    · subst h
      exact List.cons_ne_nil _ _
    · exact chunkList_mem_ne_nil k (t.drop (max 1 k - 1)) c h
termination_by xs => xs.length
decreasing_by
  simp only [List.length_cons, List.length_drop]
  omega

lemma chunkList_mem_length_le (k : Nat) :
    ∀ (xs : List α), ∀ c ∈ chunkList k xs, c.length ≤ max 1 k
  | [], c, hc => by simp [chunkList_nil] at hc
  | x :: t, c, hc => by
    rw [chunkList_cons_eq, List.mem_cons] at hc
    rcases hc with h | h
    · subst h
      simp only [List.length_cons, List.length_take]
      omega
    · exact chunkList_mem_length_le k (t.drop (max 1 k - 1)) c h
termination_by xs => xs.length
decreasing_by
  simp only [List.length_cons, List.length_drop]
  omega

lemma chunkList_dropLast_length (k : Nat) :
    ∀ (xs : List α), ∀ c ∈ (chunkList k xs).dropLast, c.length = max 1 k
  | [], c, hc => by simp [chunkList_nil] at hc
  | x :: t, c, hc => by
    rw [chunkList_cons_eq] at hc
    by_cases hrest : chunkList k (t.drop (max 1 k - 1)) = []
    · rw [hrest] at hc
      simp at hc
    · rw [List.dropLast_cons_of_ne_nil hrest, List.mem_cons] at hc
      rcases hc with h | h
      · subst h
        have ht : t.drop (max 1 k - 1) ≠ [] := fun hnil =>
          hrest (by rw [hnil, chunkList_nil])
        have hlen : max 1 k - 1 < t.length := by
          by_contra hcon
          push_neg at hcon
          rw [List.drop_eq_nil_of_le hcon] at ht
          exact ht rfl
        simp only [List.length_cons, List.length_take]
        omega
      · exact chunkList_dropLast_length k (t.drop (max 1 k - 1)) c h
termination_by xs => xs.length
decreasing_by
  simp only [List.length_cons, List.length_drop]
  omega

lemma chunkList_sum_lengths (k : Nat) (xs : List α) :
    ((chunkList k xs).map List.length).sum = xs.length := by
  conv_rhs => rw [← chunkList_flatten k xs]
  rw [List.length_flatten]

lemma srtSentencesOf_ne_nil (text : String) : srtSentencesOf text ≠ [] := by
  unfold srtSentencesOf
  by_cases h : (_split_into_sentences text).isEmpty
  · simp [h]
  · simp only [h, if_false]
    simpa using h

lemma srtTotalChars_pos (sentences : List String) :
    0 < srtTotalChars sentences := by
  unfold srtTotalChars
  by_cases h : (sentences.map String.length).sum = 0
  · simp only [h, if_true]
    norm_num
  · simp only [h, if_false]
    have : 0 < (sentences.map String.length).sum := Nat.pos_of_ne_zero h
    exact_mod_cast this

lemma assWordsOf_ne_nil (text : String) : assWordsOf text ≠ [] := by
  unfold assWordsOf
  by_cases h : (_tokenize_words text).isEmpty
  · simp [h]
  · simp only [h, if_false]
    simpa using h

/-- Shared interval-shape argument for a proportional weight list. -/
lemma propIntervals_shape (total tc : ℚ) (lens : List ℚ)
    (htotal : 0 ≤ total) (htc : 0 < tc) (hlens : ∀ x ∈ lens, 0 ≤ x) :
    let ds := lens.map (fun x => total * (x / tc))
    List.Chain' (fun p q : ℚ × ℚ => p.2 = q.1) (propIntervalsAux total 0 ds) ∧
    (∀ p ∈ propIntervalsAux total 0 ds, p.1 ≤ p.2 ∧ p.2 ≤ total) := by
  intro ds
  have hds : ∀ d ∈ ds, 0 ≤ d := by
    intro d hd
    rw [List.mem_map] at hd
    obtain ⟨x, hx, rfl⟩ := hd
    exact mul_nonneg htotal (div_nonneg (hlens x hx) (le_of_lt htc))
  exact ⟨propIntervalsAux_chain total ds 0,
    propIntervalsAux_mem_le total ds 0 hds htotal⟩

/-- Shared last-interval argument: when the weights are `x / tc` with
`tc` the (nonzero) total of the `x`s, the intervals end exactly at
`total`. -/
lemma propIntervals_last (total tc : ℚ) (lens : List ℚ)
    (htotal : 0 ≤ total) (htc : 0 < tc) (hlens : ∀ x ∈ lens, 0 ≤ x)
    (hne : lens ≠ []) (hsum : lens.sum = tc) :
    ((propIntervalsAux total 0
        (lens.map (fun x => total * (x / tc)))).getLast?).map Prod.snd =
      some total := by
  have hds : ∀ d ∈ lens.map (fun x => total * (x / tc)), 0 ≤ d := by
    intro d hd
    rw [List.mem_map] at hd
    obtain ⟨x, hx, rfl⟩ := hd
    exact mul_nonneg htotal (div_nonneg (hlens x hx) (le_of_lt htc))
  have hmapne : lens.map (fun x => total * (x / tc)) ≠ [] := by
    simpa using hne
  rw [propIntervalsAux_getLast total _ 0 hmapne hds]
  have : (lens.map (fun x => total * (x / tc))).sum = total := by
    have h1 : (lens.map fun x => total * (x / tc)).sum =
        total * ((lens.map id).sum / tc) := sum_map_mul_div total tc id lens
    rw [List.map_id] at h1
    rw [h1, hsum, div_self (ne_of_gt htc), mul_one]
  rw [this, zero_add, min_self]

/-- C1 counterexample: for the empty input text the SRT renderer's
proportional timing does not end at `totalDuration`.  The split yields the
single empty sentence, `total_chars` falls back to 1, every weight is 0,
and the only interval is `(0, 0)` although `totalDuration = 1`; no
rounding tolerance covers the gap `0 ≠ 1`. -/
theorem C1_counterexample :
    srt_intervals "" 1 = [(0, 0)] ∧
    ((srt_intervals "" 1).getLast?).map Prod.snd ≠ some 1 := by
  constructor
  · norm_num [srt_intervals, srtSentencesOf, srtTotalChars,
      _split_into_sentences, propIntervalsAux, pyStrip]
  · norm_num [srt_intervals, srtSentencesOf, srtTotalChars,
      _split_into_sentences, propIntervalsAux, pyStrip]

/-- C1 (amended): for every input text and every `totalDuration ≥ 0`, the
proportional timing of both the plain-timed (SRT) sentence renderer and
the styled (ASS) fixed-word-chunk renderer produces contiguous
(`end = next start`), ascending (`start ≤ end`) intervals bounded by
`totalDuration` that start at 0; the final interval ends exactly at
`totalDuration` for the ASS renderer on every text, and for the SRT
renderer whenever the derived sentences have positive total character
count (which holds for every text containing a non-whitespace character;
for whitespace-only text the SRT renderer instead produces the single
interval `(0, 0)`). -/
theorem C1_amended (text : String) (total : ℚ) (k : Nat)
    (htotal : 0 ≤ total) :
    (List.Chain' (fun p q : ℚ × ℚ => p.2 = q.1) (srt_intervals text total) ∧
     (∀ p ∈ srt_intervals text total, p.1 ≤ p.2 ∧ p.2 ≤ total) ∧
     ((srt_intervals text total).head?).map Prod.fst = some 0 ∧
     (((srtSentencesOf text).map String.length).sum ≠ 0 →
       ((srt_intervals text total).getLast?).map Prod.snd = some total)) ∧
    (List.Chain' (fun p q : ℚ × ℚ => p.2 = q.1)
        (ass_chunk_intervals text total k) ∧
     (∀ p ∈ ass_chunk_intervals text total k, p.1 ≤ p.2 ∧ p.2 ≤ total) ∧
     ((ass_chunk_intervals text total k).head?).map Prod.fst = some 0 ∧
     ((ass_chunk_intervals text total k).getLast?).map Prod.snd =
       some total) := by
  constructor
  · -- SRT renderer
    have hS : srtSentencesOf text ≠ [] := srtSentencesOf_ne_nil text
    have htc : 0 < srtTotalChars (srtSentencesOf text) :=
      srtTotalChars_pos (srtSentencesOf text)
    have hrw : srt_intervals text total =
        propIntervalsAux total 0
          (((srtSentencesOf text).map fun s => (s.length : ℚ)).map
            (fun x => total * (x / srtTotalChars (srtSentencesOf text)))) := by
      unfold srt_intervals
      rw [List.map_map]
      rfl
    have hlens : ∀ x ∈ (srtSentencesOf text).map fun s => (s.length : ℚ),
        0 ≤ x := by
      intro x hx
      rw [List.mem_map] at hx
      obtain ⟨s, _, rfl⟩ := hx
      positivity
    have hshape := propIntervals_shape total
      (srtTotalChars (srtSentencesOf text))
      ((srtSentencesOf text).map fun s => (s.length : ℚ)) htotal htc hlens
    refine ⟨by rw [hrw]; exact hshape.1, by rw [hrw]; exact hshape.2, ?_, ?_⟩
    · rw [hrw]
      apply propIntervalsAux_head_fst
      simpa using hS
    · intro hn
      rw [hrw]
      apply propIntervals_last total _ _ htotal htc hlens (by simpa using hS)
      rw [← cast_sum_map String.length (srtSentencesOf text)]
      unfold srtTotalChars
      simp only [hn, if_false]
  · -- ASS renderer
    have hW : assWordsOf text ≠ [] := assWordsOf_ne_nil text
    have hWlen : (assWordsOf text).length ≠ 0 := by
      simpa using hW
    have htw : 0 < assTotalWords (assWordsOf text) := by
      unfold assTotalWords
      simp only [hWlen, if_false]
      exact_mod_cast Nat.pos_of_ne_zero hWlen
    have hC : chunkList k (assWordsOf text) ≠ [] := by
      rw [Ne, chunkList_eq_nil_iff]
      exact hW
    have hrw : ass_chunk_intervals text total k =
        propIntervalsAux total 0
          (((chunkList k (assWordsOf text)).map fun c => (c.length : ℚ)).map
            (fun x => total * (x / assTotalWords (assWordsOf text)))) := by
      unfold ass_chunk_intervals
      rw [List.map_map]
      rfl
    have hlens : ∀ x ∈ (chunkList k (assWordsOf text)).map
        fun c : List String => (c.length : ℚ), 0 ≤ x := by
      intro x hx
      rw [List.mem_map] at hx
      obtain ⟨c, _, rfl⟩ := hx
      positivity
    have hshape := propIntervals_shape total (assTotalWords (assWordsOf text))
      ((chunkList k (assWordsOf text)).map fun c => (c.length : ℚ))
      htotal htw hlens
    refine ⟨by rw [hrw]; exact hshape.1, by rw [hrw]; exact hshape.2, ?_, ?_⟩
    · rw [hrw]
      apply propIntervalsAux_head_fst
      simpa using hC
    · rw [hrw]
      apply propIntervals_last total _ _ htotal htw hlens (by simpa using hC)
      rw [← cast_sum_map List.length (chunkList k (assWordsOf text)),
        chunkList_sum_lengths]
      unfold assTotalWords
      simp only [hWlen, if_false]

/-- C1 witness: concrete instance of `C1_amended` on the text
"Hello there. Ok." with `totalDuration = 2` and chunk size 6: both
renderers' interval lists end exactly at 2 and start at 0. -/
theorem C1_witness :
    ((srt_intervals "Hello there. Ok." 2).getLast?).map Prod.snd = some 2 ∧
    ((srt_intervals "Hello there. Ok." 2).head?).map Prod.fst = some 0 ∧
    ((ass_chunk_intervals "Hello there. Ok." 2 6).getLast?).map Prod.snd =
      some 2 := by
  have h := C1_amended "Hello there. Ok." 2 6 (by norm_num)
  refine ⟨h.1.2.2.2 ?_, h.1.2.2.1, h.2.2.2.2⟩
  simp +decide [srtSentencesOf, _split_into_sentences, regexSplitAux,
    mergeShortStep, pyStrip, isSentSplitPunct]

/-- C6: for every TimedWord sequence and every chunk size `k ≥ 1`,
`words_to_ass_events` partitions the words in order into consecutive
chunks of size `k` with a possibly smaller (nonempty) final chunk; each
emitted event is built from its chunk with interval
`[first.start, max(first.start, last.end)]`; and chunk size 6 over any
13 words yields exactly 3 events from chunks of sizes 6, 6, 1. -/
theorem C6_fixed_chunk (words : List TimedWord) (k : Nat) (hk : 1 ≤ k) :
    (chunkList k words).flatten = words ∧
    (∀ c ∈ chunkList k words, c ≠ [] ∧ c.length ≤ k) ∧
    (∀ c ∈ (chunkList k words).dropLast, c.length = k) ∧
    words_to_ass_events words k = (chunkList k words).map mkAssChunkEvent ∧
    (∀ (w : TimedWord) (ws : List TimedWord),
      (mkAssChunkEvent (w :: ws)).start = w.start ∧
      (mkAssChunkEvent (w :: ws)).«end» =
        max w.start (((w :: ws).getLast (List.cons_ne_nil w ws)).«end»)) ∧
    (words.length = 13 →
      (words_to_ass_events words 6).length = 3 ∧
      (chunkList 6 words).map List.length = [6, 6, 1]) := by
  have hmax : max 1 k = k := Nat.max_eq_right hk
  refine ⟨chunkList_flatten k words, ?_, ?_, rfl, ?_, ?_⟩
  · intro c hc
    exact ⟨chunkList_mem_ne_nil k words c hc,
      hmax ▸ chunkList_mem_length_le k words c hc⟩
  · intro c hc
    exact hmax ▸ chunkList_dropLast_length k words c hc
  · intro w ws
    refine ⟨rfl, ?_⟩
    show (if ((w :: ws).getLast (List.cons_ne_nil w ws)).«end» ≥ w.start then
        ((w :: ws).getLast (List.cons_ne_nil w ws)).«end» else w.start) = _
    by_cases h : ((w :: ws).getLast (List.cons_ne_nil w ws)).«end» ≥ w.start
    · rw [if_pos h, max_eq_right h]
    · push_neg at h
      rw [if_neg (by push_neg; exact h), max_eq_left (le_of_lt h)]
  · intro h13
    have hm6 : max 1 6 = 6 := by norm_num
    have hne1 : words ≠ [] := by
      intro h
      rw [h] at h13
      simp at h13
    have e1 := chunkList_cons_of_ne_nil 6 words hne1
    have hd1 : (words.drop 6).length = 7 := by
      rw [List.length_drop, h13]
    have hne2 : words.drop 6 ≠ [] := by
      intro h
      rw [h] at hd1
      simp at hd1
    have e2 := chunkList_cons_of_ne_nil 6 (words.drop 6) hne2
    have hd2 : ((words.drop 6).drop 6).length = 1 := by
      rw [List.length_drop, hd1]
    have hne3 : (words.drop 6).drop 6 ≠ [] := by
      intro h
      rw [h] at hd2
      simp at hd2
    have e3 := chunkList_cons_of_ne_nil 6 ((words.drop 6).drop 6) hne3
    have hd3 : (((words.drop 6).drop 6).drop 6).length = 0 := by
      rw [List.length_drop, hd2]
    have hnil : ((words.drop 6).drop 6).drop 6 = [] :=
      List.eq_nil_of_length_eq_zero hd3
    rw [hm6] at e1 e2 e3
    rw [hnil, chunkList_nil] at e3
    constructor
    · rw [words_to_ass_events, List.length_map, e1, e2, e3]
      rfl
    · rw [e1, e2, e3]
      simp only [List.map_cons, List.map_nil, List.length_take, hd1, hd2, h13]
      norm_num

/-- C6 witness: `C6_fixed_chunk` instantiated at a concrete 13-word list
and chunk size 6. -/
theorem C6_witness :
    (chunkList 6 (List.replicate 13 (⟨"w", 0, 1⟩ : TimedWord))).flatten =
      List.replicate 13 (⟨"w", 0, 1⟩ : TimedWord) ∧
    (words_to_ass_events (List.replicate 13 (⟨"w", 0, 1⟩ : TimedWord))
      6).length = 3 ∧
    (chunkList 6 (List.replicate 13 (⟨"w", 0, 1⟩ : TimedWord))).map
      List.length = [6, 6, 1] := by
  have h := C6_fixed_chunk (List.replicate 13 (⟨"w", 0, 1⟩ : TimedWord)) 6
    (by norm_num)
  have hs := h.2.2.2.2.2 (by simp)
  exact ⟨h.1, hs.1, hs.2⟩

lemma escape_no_braces (s : String) :
    lbrace ∉ (_escape_ass_text s).data ∧ rbrace ∉ (_escape_ass_text s).data := by
  have hdata : (_escape_ass_text s).data =
      (s.data.map (fun c => if c = lbrace then '(' else c)).map
        (fun c => if c = rbrace then ')' else c) := rfl
  constructor
  · intro hmem
    rw [hdata, List.mem_map] at hmem
    obtain ⟨y, hy, hgy⟩ := hmem
    by_cases hyr : y = rbrace
    · rw [if_pos hyr] at hgy
      exact absurd hgy (by decide)
    · rw [if_neg hyr] at hgy
      subst hgy
      rw [List.mem_map] at hy
      obtain ⟨z, _, hfz⟩ := hy
      by_cases hzl : z = lbrace
      · rw [if_pos hzl] at hfz
        exact absurd hfz (by decide)
      · rw [if_neg hzl] at hfz
        exact hzl hfz
  · intro hmem
    rw [hdata, List.mem_map] at hmem
    obtain ⟨y, _, hgy⟩ := hmem
    by_cases hyr : y = rbrace
    · rw [if_pos hyr] at hgy
      exact absurd hgy (by decide)
    · rw [if_neg hyr] at hgy
      exact hyr hgy

/-- C9: the text payload of a Dialogue line written by either styled (ASS)
renderer contains no literal brace: every left brace in the event text is
replaced by a parenthesis and every right brace likewise before
serialization, so no brace can act as an inline style-override code. -/
theorem C9_no_braces (ev : CaptionEvent) (chunk : List String) :
    (lbrace ∉ (assDialoguePayloadOfEvent ev).data ∧
     rbrace ∉ (assDialoguePayloadOfEvent ev).data) ∧
    (lbrace ∉ (assDialoguePayloadOfChunk chunk).data ∧
     rbrace ∉ (assDialoguePayloadOfChunk chunk).data) ∧
    _escape_ass_text (String.mk [lbrace, 'a', rbrace]) = "(a)" :=
  ⟨escape_no_braces _, escape_no_braces _, by decide⟩

/-- C9 witness: `C9_no_braces` at an event whose text contains both
braces. -/
theorem C9_witness :
    lbrace ∉ (assDialoguePayloadOfEvent
      ⟨0, 1, String.mk [lbrace, 'x', rbrace]⟩).data ∧
    rbrace ∉ (assDialoguePayloadOfEvent
      ⟨0, 1, String.mk [lbrace, 'x', rbrace]⟩).data :=
  ⟨(C9_no_braces ⟨0, 1, String.mk [lbrace, 'x', rbrace]⟩ []).1.1,
   (C9_no_braces ⟨0, 1, String.mk [lbrace, 'x', rbrace]⟩ []).1.2⟩

/-- C5 counterexample: the probe accepts a parseable NEGATIVE duration.
On a zero exit status with output "-1.0" the source returns -1.0
successfully, whereas the claim requires a `ProbeError` whenever the
output is not a parseable non-negative number. -/
theorem C5_counterexample :
    _probe_duration_seconds ⟨0, "-1.0"⟩ = .ok (-1) ∧ (-1 : ℚ) < 0 := by
  constructor
  · simp +decide [_probe_duration_seconds, pyFloat?, pyStrip, digitsVal]
  · norm_num

/-- C5 (amended): `_probe_duration_seconds` fails exactly when the probe
subprocess exits non-zero or its stripped output is not parseable as a
(possibly negative) floating-point literal; on success it returns the
parsed value.  The function performs no file-existence check of its own:
a missing file surfaces only as a non-zero `ffprobe` exit. -/
theorem C5_amended (r : ProcResult) :
    ((∃ e, _probe_duration_seconds r = .error e) ↔
      (r.returncode ≠ 0 ∨ pyFloat? (pyStrip r.stdout) = none)) ∧
    (∀ v, r.returncode = 0 → pyFloat? (pyStrip r.stdout) = some v →
      _probe_duration_seconds r = .ok v) := by
  by_cases hrc : r.returncode = 0
  · constructor
    · cases hpf : pyFloat? (pyStrip r.stdout) with
      | none => simp [_probe_duration_seconds, hrc, hpf]
      | some v => simp [_probe_duration_seconds, hrc, hpf]
    · intro v hv0 hpf
      simp [_probe_duration_seconds, hrc, hpf]
  · constructor
    · constructor
      · intro _
        exact Or.inl hrc
      · intro _
        exact ⟨.toolFailed, by simp [_probe_duration_seconds, hrc]⟩
    · intro v hv0 _
      exact absurd hv0 hrc

/-- C5 witness: `C5_amended` instantiated concretely — a non-zero exit is
an error, and a zero exit with parseable output "2" returns 2. -/
theorem C5_witness :
    (∃ e, _probe_duration_seconds ⟨1, "x"⟩ = .error e) ∧
    _probe_duration_seconds ⟨0, "2"⟩ = .ok 2 := by
  constructor
  · exact (C5_amended ⟨1, "x"⟩).1.mpr (Or.inl (by simp))
  · exact (C5_amended ⟨0, "2"⟩).2 2 rfl
      (by simp +decide [pyFloat?, pyStrip, digitsVal])

/-- C4: if any of the three input paths does not exist, the composition
pipeline fails with a missing-input error before any subprocess is
spawned — the spawned-subprocess trace is empty — and neither the output
file nor any subtitle artifact is written. -/
theorem C4_missing_input (fs : String → Bool) (probeRes : ProcResult)
    (toolOk : Nat → Bool) (a : ComposeArgs)
    (h : fs a.speech_audio_path = false ∨
         fs a.background_video_path = false ∨
         fs a.background_music_path = false) :
    (∃ p, (compose_video_with_speech fs probeRes toolOk a).error =
      some (.fileNotFound p)) ∧
    (compose_video_with_speech fs probeRes toolOk a).spawned = [] ∧
    (compose_video_with_speech fs probeRes toolOk a).outputWritten = false ∧
    (compose_video_with_speech fs probeRes toolOk a).srtWritten = none ∧
    (compose_video_with_speech fs probeRes toolOk a).assWritten = none := by
  by_cases h1 : fs a.speech_audio_path
  · by_cases h2 : fs a.background_video_path
    · by_cases h3 : fs a.background_music_path
      · rw [h1, h2, h3] at h
        simp at h
      · refine ⟨⟨a.background_music_path, ?_⟩, ?_, ?_, ?_, ?_⟩ <;>
          simp [compose_video_with_speech, h1, h2, h3]
    · refine ⟨⟨a.background_video_path, ?_⟩, ?_, ?_, ?_, ?_⟩ <;>
        simp [compose_video_with_speech, h1, h2]
  · refine ⟨⟨a.speech_audio_path, ?_⟩, ?_, ?_, ?_, ?_⟩ <;>
      simp [compose_video_with_speech, h1]

/-- C4 witness: `C4_missing_input` on a world where no file exists. -/
theorem C4_witness :
    (compose_video_with_speech (fun _ => false) ⟨0, "1"⟩ (fun _ => true)
      ⟨"s", "v", "m", "o", 1, none, true, none, none⟩).spawned = [] ∧
    (compose_video_with_speech (fun _ => false) ⟨0, "1"⟩ (fun _ => true)
      ⟨"s", "v", "m", "o", 1, none, true, none, none⟩).outputWritten =
      false := by
  have h := C4_missing_input (fun _ => false) ⟨0, "1"⟩ (fun _ => true)
    ⟨"s", "v", "m", "o", 1, none, true, none, none⟩ (Or.inl rfl)
  exact ⟨h.2.1, h.2.2.1⟩

/-- C10: in `compose_video_with_speech`, pre-built ASS events take
precedence over raw ASS caption text, which takes precedence over plain
SRT caption text.  On a run that reaches the subtitle stage: when
`ass_events` is supplied (truthy — Python treats `None` and `[]` as
falsy), the ASS file is generated from the events regardless of
`ass_captions_text`; and when any ASS caption input is supplied together
with `burn_captions`, the final mux burns the ASS file (a `muxBurnAss`
step), never the SRT file. -/
theorem C10_precedence (fs : String → Bool) (probeRes : ProcResult)
    (toolOk : Nat → Bool) (a : ComposeArgs) (v : ℚ)
    (h1 : fs a.speech_audio_path = true)
    (h2 : fs a.background_video_path = true)
    (h3 : fs a.background_music_path = true)
    (hp : _probe_duration_seconds probeRes = .ok v)
    (ht : ∀ n, toolOk n = true) :
    (listTruthy a.ass_events = true →
      (compose_video_with_speech fs probeRes toolOk a).assWritten =
        some (.fromEvents (a.ass_events.getD []))) ∧
    ((listTruthy a.ass_events || strTruthy a.ass_captions_text) = true →
      a.burn_captions = true →
      (∃ b, ((compose_video_with_speech fs probeRes toolOk a).spawned).getLast? =
        some (.muxBurnAss b)) ∧
      (∀ b, ((compose_video_with_speech fs probeRes toolOk a).spawned).getLast? ≠
        some (.muxBurnSrt b))) := by
  constructor
  · intro hev
    simp [compose_video_with_speech, h1, h2, h3, hp, ht 0, ht 1, ht 2, ht 3,
      hev]
  · intro hor hburn
    constructor
    · refine ⟨decide (a.playback_speed ≠ 1), ?_⟩
      simp [compose_video_with_speech, h1, h2, h3, hp, ht 0, ht 1, ht 2,
        ht 3, hor, hburn]
    · intro b
      simp [compose_video_with_speech, h1, h2, h3, hp, ht 0, ht 1, ht 2,
        ht 3, hor, hburn]

/-- C10 witness: `C10_precedence` on a concrete run where all three
caption inputs are supplied: the ASS artifact comes from the events and
the mux burns ASS. -/
theorem C10_witness :
    (compose_video_with_speech (fun _ => true) ⟨0, "2"⟩ (fun _ => true)
      ⟨"s", "v", "m", "o", 1, some "plain", true, some "asstext",
        some [⟨0, 1, "hi"⟩]⟩).assWritten =
      some (.fromEvents [⟨0, 1, "hi"⟩]) ∧
    (∃ b, ((compose_video_with_speech (fun _ => true) ⟨0, "2"⟩
      (fun _ => true) ⟨"s", "v", "m", "o", 1, some "plain", true,
        some "asstext", some [⟨0, 1, "hi"⟩]⟩).spawned).getLast? =
      some (.muxBurnAss b)) := by
  have h := C10_precedence (fun _ => true) ⟨0, "2"⟩ (fun _ => true)
    ⟨"s", "v", "m", "o", 1, some "plain", true, some "asstext",
      some [⟨0, 1, "hi"⟩]⟩ 2 rfl rfl rfl
    (by simp +decide [_probe_duration_seconds, pyFloat?, pyStrip, digitsVal])
    (fun _ => rfl)
  exact ⟨h.1 (by simp [listTruthy]), (h.2 (by simp [listTruthy]) rfl).1⟩

lemma take_append_eq (n : Nat) :
    ∀ (A B : List α), n ≤ A.length → (A ++ B).take n = A.take n := by
  induction n with
  | zero => intro A B _; simp
  | succ m ih =>
    intro A B h
    cases A with
    | nil => simp at h
    | cons a A' =>
      simp only [List.cons_append, List.take_succ_cons]
      rw [ih A' B (by simpa using h)]

lemma singleWord_fold_aux (words : List TimedWord) :
    ∀ (ws : List TimedWord) (acc : List CaptionEvent),
      (∀ w ∈ ws, w ∈ words ∧ (pyStrip w.text).data ≠ []) →
      acc ≠ [] →
      (∀ ev ∈ acc, ∃ w ∈ words, is_punct (pyStrip w.text) = false ∧
        ev.start = w.start ∧
        ev.text.data.take (pyStrip w.text).data.length = (pyStrip w.text).data) →
      (List.foldl singleWordStep acc ws ≠ [] ∧
       (List.foldl singleWordStep acc ws).length =
         acc.length + (ws.filter (fun w => !is_punct (pyStrip w.text))).length ∧
       (∀ ev ∈ List.foldl singleWordStep acc ws, ∃ w ∈ words,
         is_punct (pyStrip w.text) = false ∧ ev.start = w.start ∧
         ev.text.data.take (pyStrip w.text).data.length =
           (pyStrip w.text).data)) := by
  intro ws
  induction ws with
  | nil =>
    intro acc _ hne hgood
    exact ⟨hne, by simp, hgood⟩
  | cons w ws ih =>
    intro acc hws hne hgood
    have hw := hws w (List.mem_cons_self w ws)
    have hws' : ∀ x ∈ ws, x ∈ words ∧ (pyStrip x.text).data ≠ [] :=
      fun x hx => hws x (List.mem_cons_of_mem w hx)
    have hempty : ((pyStrip w.text).data.isEmpty = true) = False := by
      simp [List.isEmpty_iff, hw.2]
    rw [List.foldl_cons]
    by_cases hpunct : is_punct (pyStrip w.text) = true
    · -- punctuation token: merged into the last event
      cases hlast : acc.getLast? with
      | none =>
        exact absurd (List.getLast?_eq_none_iff.mp hlast) hne
      | some last =>
        have hlastmem : last ∈ acc := List.mem_of_getLast?_eq_some hlast
        have hstep : singleWordStep acc w =
            acc.dropLast ++ [⟨last.start, w.«end», last.text ++ pyStrip w.text⟩] := by
          unfold singleWordStep
          simp only [hempty, eq_self_iff_true, if_false, hpunct, if_true, hlast]
        obtain ⟨w0, hw0mem, hw0np, hw0start, hw0take⟩ := hgood last hlastmem
        have hgood' : ∀ ev ∈ singleWordStep acc w, ∃ w1 ∈ words,
            is_punct (pyStrip w1.text) = false ∧ ev.start = w1.start ∧
            ev.text.data.take (pyStrip w1.text).data.length =
              (pyStrip w1.text).data := by
          intro ev hev
          rw [hstep, List.mem_append] at hev
          rcases hev with hev | hev
          · exact hgood ev (List.dropLast_subset acc hev)
          · rw [List.mem_singleton] at hev
            subst hev
            refine ⟨w0, hw0mem, hw0np, hw0start, ?_⟩
            have hlen : (pyStrip w0.text).data.length ≤ last.text.data.length := by
              have := congrArg List.length hw0take
              rw [List.length_take] at this
              omega
            show ((last.text ++ pyStrip w.text).data).take _ = _
            rw [String.data_append, take_append_eq _ _ _ hlen, hw0take]
        have hlen' : (singleWordStep acc w).length = acc.length := by
          rw [hstep, List.length_append, List.length_dropLast,
            List.length_singleton]
          have : 0 < acc.length := List.length_pos_of_ne_nil hne
          omega
        have hne' : singleWordStep acc w ≠ [] := by
          rw [hstep]
          simp
        have := ih (singleWordStep acc w) hws' hne' hgood'
        refine ⟨this.1, ?_, this.2.2⟩
        rw [this.2.1, hlen', List.filter_cons]
        simp [hpunct]
    · -- non-punctuation token: a fresh event is appended
      rw [Bool.not_eq_true] at hpunct
      have hstep : singleWordStep acc w =
          acc ++ [⟨w.start, w.«end», pyStrip w.text⟩] := by
        unfold singleWordStep
        simp only [hempty, eq_self_iff_true, if_false, hpunct]
        simp
      have hgood' : ∀ ev ∈ singleWordStep acc w, ∃ w1 ∈ words,
          is_punct (pyStrip w1.text) = false ∧ ev.start = w1.start ∧
          ev.text.data.take (pyStrip w1.text).data.length =
            (pyStrip w1.text).data := by
        intro ev hev
        rw [hstep, List.mem_append] at hev
        rcases hev with hev | hev
        · exact hgood ev hev
        · rw [List.mem_singleton] at hev
          subst hev
          exact ⟨w, hw.1, hpunct, rfl, by simp [List.take_length]⟩
      have hne' : singleWordStep acc w ≠ [] := by
        rw [hstep]
        simp
      have := ih (singleWordStep acc w) hws' hne' hgood'
      refine ⟨this.1, ?_, this.2.2⟩
      rw [this.2.1, hstep, List.length_append, List.length_singleton,
        List.filter_cons]
      simp only [hpunct, Bool.not_false, if_true, List.length_cons]
      omega

/-- C2 counterexample: (a) a punctuation-only token at the head of the
sequence IS emitted as a standalone event (the merge guard
`if is_punct(token) and events:` falls through when no event precedes),
so the event count (1) differs from the count of non-punctuation tokens
(0); and (b) a token that is empty after stripping is skipped without
emitting an event, although it is not punctuation-only, so there the
event count (1) differs from the count of non-punctuation tokens (2). -/
theorem C2_counterexample :
    (words_to_single_word_events [⟨".", 0, 1⟩] = [⟨0, 1, "."⟩] ∧
     is_punct (pyStrip ".") = true ∧
     (([⟨".", 0, 1⟩] : List TimedWord).filter
       (fun w => !is_punct (pyStrip w.text))).length = 0) ∧
    (words_to_single_word_events [⟨"a", 0, 1⟩, ⟨" ", 1, 2⟩] = [⟨0, 1, "a"⟩] ∧
     (([⟨"a", 0, 1⟩, ⟨" ", 1, 2⟩] : List TimedWord).filter
       (fun w => !is_punct (pyStrip w.text))).length = 2) := by
  refine ⟨⟨?_, by decide, by decide⟩, ⟨?_, by decide⟩⟩
  · simp +decide [words_to_single_word_events, singleWordStep, pyStrip,
      is_punct, single_word_punct_chars]
  · simp +decide [words_to_single_word_events, singleWordStep, pyStrip,
      is_punct, single_word_punct_chars]

lemma is_punct_data_ne_nil (s : String) (h : is_punct s = true) :
    s.data ≠ [] := by
  intro hd
  have hps : (pyStrip s).data = [] := by
    unfold pyStrip
    rw [hd]
    rfl
  simp only [is_punct] at h
  rw [hps] at h
  simp at h

/-- C2 (amended): whenever a punctuation-only token is processed while at
least one event has already been emitted, it is appended to the text of
the immediately preceding event and that event's end time is set to the
token's end (this holds for every sequence, with no hypotheses).
Moreover, for every TimedWord sequence whose tokens are all nonempty
after stripping and whose first token is not punctuation-only,
single-word chunking emits no punctuation-only token as a standalone
event: every emitted event starts at the start time of some
non-punctuation input word, its text begins with that word's stripped
token, and the count of emitted events equals the count of
non-punctuation tokens.  In particular, the input
`[("It's", 0, 0.4), (".", 0.4, 0.4)]` yields exactly the single event
`(0, 0.4, "It's.")`. -/
theorem C2_amended (words : List TimedWord)
    (hnonempty : ∀ w ∈ words, (pyStrip w.text).data ≠ [])
    (hfirst : ∀ w0, words.head? = some w0 → is_punct (pyStrip w0.text) = false) :
    ((words_to_single_word_events words).length =
      (words.filter (fun w => !is_punct (pyStrip w.text))).length ∧
     ∀ ev ∈ words_to_single_word_events words, ∃ w ∈ words,
       is_punct (pyStrip w.text) = false ∧ ev.start = w.start ∧
       ev.text.data.take (pyStrip w.text).data.length =
         (pyStrip w.text).data) ∧
    (∀ (ws : List TimedWord) (p : TimedWord) (last : CaptionEvent),
      is_punct (pyStrip p.text) = true →
      (words_to_single_word_events ws).getLast? = some last →
      words_to_single_word_events (ws ++ [p]) =
        (words_to_single_word_events ws).dropLast ++
          [⟨last.start, p.«end», last.text ++ pyStrip p.text⟩]) ∧
    words_to_single_word_events
        [⟨String.mk ['I', 't', apos, 's'], 0, 2/5⟩, ⟨".", 2/5, 2/5⟩] =
      [⟨0, 2/5, String.mk ['I', 't', apos, 's', '.']⟩] := by
  refine ⟨?_, ?_, ?_⟩
  · cases words with
    | nil => simp [words_to_single_word_events]
    | cons w ws =>
      have hw1 : (pyStrip w.text).data ≠ [] :=
        hnonempty w (List.mem_cons_self w ws)
      have hfw : is_punct (pyStrip w.text) = false := hfirst w rfl
      have hempty : ((pyStrip w.text).data.isEmpty = true) = False := by
        simp [List.isEmpty_iff, hw1]
      have hstep : singleWordStep [] w = [⟨w.start, w.«end», pyStrip w.text⟩] := by
        unfold singleWordStep
        simp only [hempty, eq_self_iff_true, if_false, hfw]
        simp
      have hws' : ∀ x ∈ ws, x ∈ w :: ws ∧ (pyStrip x.text).data ≠ [] :=
        fun x hx => ⟨List.mem_cons_of_mem w hx,
          hnonempty x (List.mem_cons_of_mem w hx)⟩
      have hgood : ∀ ev ∈ [(⟨w.start, w.«end», pyStrip w.text⟩ : CaptionEvent)],
          ∃ w1 ∈ w :: ws, is_punct (pyStrip w1.text) = false ∧
            ev.start = w1.start ∧
            ev.text.data.take (pyStrip w1.text).data.length =
              (pyStrip w1.text).data := by
        intro ev hev
        rw [List.mem_singleton] at hev
        subst hev
        exact ⟨w, List.mem_cons_self w ws, hfw, rfl, by simp [List.take_length]⟩
      have haux := singleWord_fold_aux (w :: ws) ws
        [⟨w.start, w.«end», pyStrip w.text⟩] hws' (List.cons_ne_nil _ _) hgood
      have hrw : words_to_single_word_events (w :: ws) =
          List.foldl singleWordStep [⟨w.start, w.«end», pyStrip w.text⟩] ws := by
        rw [words_to_single_word_events, List.foldl_cons, hstep]
      constructor
      · rw [hrw, haux.2.1, List.filter_cons]
        simp only [hfw, Bool.not_false, if_true, List.length_cons,
          List.length_nil]
        omega
      · rw [hrw]
        exact haux.2.2
  · intro ws p last hpunct hlast
    have hfold : words_to_single_word_events (ws ++ [p]) =
        singleWordStep (words_to_single_word_events ws) p := by
      unfold words_to_single_word_events
      rw [List.foldl_append]
      rfl
    have hne : (pyStrip p.text).data ≠ [] :=
      is_punct_data_ne_nil _ hpunct
    have hempty : ((pyStrip p.text).data.isEmpty = true) = False := by
      simp [List.isEmpty_iff, hne]
    rw [hfold]
    unfold singleWordStep
    simp only [hempty, if_false, hpunct, if_true, hlast]
  · simp +decide [words_to_single_word_events, singleWordStep, pyStrip,
      is_punct, single_word_punct_chars, apos]

/-- C2 witness: `C2_amended` at the concrete input
`[("Hi", 0, 1), (".", 1, 1)]` — one event for two tokens, of which one is
non-punctuation — together with the append conjunct applied to the prior
event `(0, 1, "Hi")` and the punctuation token `(".", 1, 2)`, and the
"It's." scenario. -/
theorem C2_witness :
    ((words_to_single_word_events [⟨"Hi", 0, 1⟩, ⟨".", 1, 1⟩]).length =
      (([⟨"Hi", 0, 1⟩, ⟨".", 1, 1⟩] : List TimedWord).filter
        (fun w => !is_punct (pyStrip w.text))).length) ∧
    words_to_single_word_events ([⟨"Hi", 0, 1⟩] ++ [⟨".", 1, 2⟩]) =
      (words_to_single_word_events [⟨"Hi", 0, 1⟩]).dropLast ++
        [⟨0, 2, "Hi" ++ pyStrip "."⟩] ∧
    words_to_single_word_events
        [⟨String.mk ['I', 't', apos, 's'], 0, 2/5⟩, ⟨".", 2/5, 2/5⟩] =
      [⟨0, 2/5, String.mk ['I', 't', apos, 's', '.']⟩] := by
  have h := C2_amended [⟨"Hi", 0, 1⟩, ⟨".", 1, 1⟩]
    (by decide) (by decide)
  refine ⟨h.1.1, ?_, h.2.2⟩
  exact h.2.1 [⟨"Hi", 0, 1⟩] ⟨".", 1, 2⟩ ⟨0, 1, "Hi"⟩ (by decide)
    (by simp +decide [words_to_single_word_events, singleWordStep, pyStrip,
      is_punct, single_word_punct_chars])

/-! ## Helper lemmas: sentence partition -/

lemma sentenceSplitAux_flatten (ws : List TimedWord) :
    ∀ cur, (sentenceSplitAux cur ws).flatten = cur ++ ws := by
  induction ws with
  | nil =>
    intro cur
    by_cases h : cur.isEmpty
    · rw [sentenceSplitAux]
      simp only [h, if_true]
      simp [List.isEmpty_iff.mp h]
    · rw [sentenceSplitAux]
      simp only [h, if_false]
      simp
  | cons w ws ih =>
    intro cur
    rw [sentenceSplitAux]
    by_cases h : is_end_token w.text
    · simp only [h, if_true, List.flatten_cons, ih []]
      simp
    · rw [if_neg h, ih (cur ++ [w])]
      simp

lemma flatten_map_chunkList (m : Nat) :
    ∀ S : List (List TimedWord), ((S.map (chunkList m)).flatten).flatten = S.flatten
  | [] => by simp
  | s :: S => by
    simp only [List.map_cons, List.flatten_cons, List.flatten_append,
      chunkList_flatten, flatten_map_chunkList m S]

lemma sentenceChunksOf_flatten (m : Nat) (words : List TimedWord) :
    (sentenceChunksOf m words).flatten = words := by
  unfold sentenceChunksOf sentenceSplit
  rw [flatten_map_chunkList, sentenceSplitAux_flatten]
  simp

lemma mkAssChunkEvent_le (c : List TimedWord) :
    (mkAssChunkEvent c).start ≤ (mkAssChunkEvent c).«end» := by
  cases c with
  | nil => simp [mkAssChunkEvent]
  | cons w ws =>
    simp only [mkAssChunkEvent]
    split_ifs with h
    · exact h
    · exact le_refl _

lemma mkSentEvent_le (words : List TimedWord)
    (hwf : ∀ w ∈ words, w.start ≤ w.«end»)
    (hsorted : List.Pairwise (fun a b : TimedWord => a.start ≤ b.start) words)
    (c : List TimedWord) (hc : c.Sublist words) :
    (mkSentEvent c).start ≤ (mkSentEvent c).«end» := by
  cases c with
  | nil => simp [mkSentEvent]
  | cons w ws =>
    have hp := hsorted.sublist hc
    have hlastmem : (w :: ws).getLast (List.cons_ne_nil w ws) ∈ w :: ws :=
      List.getLast_mem _
    have h1 : w.start ≤ ((w :: ws).getLast (List.cons_ne_nil w ws)).start := by
      rcases List.mem_cons.mp hlastmem with h | h
      · rw [h]
      · exact (List.pairwise_cons.mp hp).1 _ h
    have h2 : ((w :: ws).getLast (List.cons_ne_nil w ws)).start ≤
        ((w :: ws).getLast (List.cons_ne_nil w ws)).«end» :=
      hwf _ (hc.subset hlastmem)
    exact le_trans h1 h2

lemma singleWord_le_aux :
    ∀ (ws : List TimedWord) (acc : List CaptionEvent),
      (∀ w ∈ ws, w.start ≤ w.«end») →
      List.Pairwise (fun a b : TimedWord => a.start ≤ b.start) ws →
      (∀ ev ∈ acc, ev.start ≤ ev.«end» ∧ ∀ w ∈ ws, ev.start ≤ w.start) →
      ∀ ev ∈ List.foldl singleWordStep acc ws, ev.start ≤ ev.«end» := by
  intro ws
  induction ws with
  | nil =>
    intro acc _ _ hacc ev hev
    exact (hacc ev hev).1
  | cons w ws ih =>
    intro acc hwf hsorted hacc
    have hwlew : ∀ x ∈ ws, w.start ≤ x.start := (List.pairwise_cons.mp hsorted).1
    have hwf' : ∀ x ∈ ws, x.start ≤ x.«end» :=
      fun x hx => hwf x (List.mem_cons_of_mem w hx)
    have hsorted' := (List.pairwise_cons.mp hsorted).2
    rw [List.foldl_cons]
    have hinv : ∀ ev ∈ singleWordStep acc w,
        ev.start ≤ ev.«end» ∧ ∀ x ∈ ws, ev.start ≤ x.start := by
      intro ev hev
      by_cases hemp : (pyStrip w.text).data.isEmpty
      · have hstep : singleWordStep acc w = acc := by
          unfold singleWordStep
          simp only [hemp, if_true]
        rw [hstep] at hev
        have := hacc ev hev
        exact ⟨this.1, fun x hx => this.2 x (List.mem_cons_of_mem w hx)⟩
      · by_cases hpunct : is_punct (pyStrip w.text) = true
        · have hempty : ((pyStrip w.text).data.isEmpty = true) = False := by
            simp [hemp]
          cases hlast : acc.getLast? with
          | none =>
            have hstep : singleWordStep acc w =
                acc ++ [⟨w.start, w.«end», pyStrip w.text⟩] := by
              unfold singleWordStep
              simp only [hempty, if_false, hpunct, if_true, hlast]
            rw [hstep, List.mem_append] at hev
            rcases hev with hev | hev
            · have := hacc ev hev
              exact ⟨this.1, fun x hx => this.2 x (List.mem_cons_of_mem w hx)⟩
            · rw [List.mem_singleton] at hev
              subst hev
              exact ⟨hwf w (List.mem_cons_self w ws), hwlew⟩
          | some last =>
            have hlastmem : last ∈ acc := List.mem_of_getLast?_eq_some hlast
            have hstep : singleWordStep acc w = acc.dropLast ++
                [⟨last.start, w.«end», last.text ++ pyStrip w.text⟩] := by
              unfold singleWordStep
              simp only [hempty, if_false, hpunct, if_true, hlast]
            rw [hstep, List.mem_append] at hev
            rcases hev with hev | hev
            · have := hacc ev (List.dropLast_subset acc hev)
              exact ⟨this.1, fun x hx => this.2 x (List.mem_cons_of_mem w hx)⟩
            · rw [List.mem_singleton] at hev
              subst hev
              have hlast1 := hacc last hlastmem
              have hls : last.start ≤ w.start :=
                hlast1.2 w (List.mem_cons_self w ws)
              refine ⟨le_trans hls (hwf w (List.mem_cons_self w ws)), ?_⟩
              intro x hx
              exact hlast1.2 x (List.mem_cons_of_mem w hx)
        · have hempty : ((pyStrip w.text).data.isEmpty = true) = False := by
            simp [hemp]
          have hstep : singleWordStep acc w =
              acc ++ [⟨w.start, w.«end», pyStrip w.text⟩] := by
            unfold singleWordStep
            simp only [hempty, if_false, hpunct]
            simp
          rw [hstep, List.mem_append] at hev
          rcases hev with hev | hev
          · have := hacc ev hev
            exact ⟨this.1, fun x hx => this.2 x (List.mem_cons_of_mem w hx)⟩
          · rw [List.mem_singleton] at hev
            subst hev
            exact ⟨hwf w (List.mem_cons_self w ws), hwlew⟩
    exact ih (singleWordStep acc w) hwf' hsorted' hinv

/-- C3 counterexample: the single-word path does not clamp a reversed
input span.  The word ("hi", start 2, end 1) produces the event
(start 2, end 1) with `end < start`, so not every chunking strategy
tolerates degenerate spans by clamping. -/
theorem C3_counterexample :
    words_to_single_word_events [⟨"hi", 2, 1⟩] = [⟨2, 1, "hi"⟩] ∧
    ¬((2 : ℚ) ≤ 1) := by
  constructor
  · simp +decide [words_to_single_word_events, singleWordStep, pyStrip,
      is_punct, single_word_punct_chars]
  · norm_num

/-- C3 (amended): only the fixed-chunk path (`words_to_ass_events`) clamps
and guarantees `end ≥ start` for every input, including reversed spans;
the sentence-bounded and single-word paths guarantee `end ≥ start` only
when the input words are well-formed (`end ≥ start`) and ordered by
non-decreasing start time — on reversed spans they emit the degenerate
end unclamped. -/
theorem C3_amended (words : List TimedWord) (k m : Nat) :
    (∀ ev ∈ words_to_ass_events words k, ev.start ≤ ev.«end») ∧
    ((∀ w ∈ words, w.start ≤ w.«end») →
     List.Pairwise (fun a b : TimedWord => a.start ≤ b.start) words →
     (∀ ev ∈ words_to_sentence_chunk_events words m, ev.start ≤ ev.«end») ∧
     (∀ ev ∈ words_to_single_word_events words, ev.start ≤ ev.«end»)) := by
  constructor
  · intro ev hev
    rw [words_to_ass_events, List.mem_map] at hev
    obtain ⟨c, _, rfl⟩ := hev
    exact mkAssChunkEvent_le c
  · intro hwf hsorted
    constructor
    · intro ev hev
      rw [words_to_sentence_chunk_events, List.mem_map] at hev
      obtain ⟨c, hc, rfl⟩ := hev
      have hsub : c.Sublist words := by
        have := List.sublist_flatten_of_mem hc
        rwa [sentenceChunksOf_flatten] at this
      exact mkSentEvent_le words hwf hsorted c hsub
    · exact singleWord_le_aux words [] hwf hsorted (by simp)

/-- C3 witness: `C3_amended` on the well-formed ordered input
`[("a", 0, 1), (".", 1, 1)]`: the single-word event `(0, 1, "a.")` that
this input produces satisfies `end ≥ start`. -/
theorem C3_witness :
    (⟨0, 1, "a."⟩ : CaptionEvent) ∈
      words_to_single_word_events [⟨"a", 0, 1⟩, ⟨".", 1, 1⟩] ∧
    ((⟨0, 1, "a."⟩ : CaptionEvent).start ≤ (⟨0, 1, "a."⟩ : CaptionEvent).«end») := by
  have hmem : (⟨0, 1, "a."⟩ : CaptionEvent) ∈
      words_to_single_word_events [⟨"a", 0, 1⟩, ⟨".", 1, 1⟩] := by
    simp +decide [words_to_single_word_events, singleWordStep, pyStrip,
      is_punct, single_word_punct_chars]
  have h := (C3_amended [⟨"a", 0, 1⟩, ⟨".", 1, 1⟩] 6 7).2
    (by decide) (by decide)
  exact ⟨hmem, h.2 ⟨0, 1, "a."⟩ hmem⟩

lemma dropLast_drop_subset : ∀ (t : List α) (n : Nat),
    (t.drop n).dropLast ⊆ t.dropLast
  | [], _ => by simp
  | _ :: _, 0 => by simp
  | a :: t', n + 1 => by
    simp only [List.drop_succ_cons]
    intro x hx
    have hx' : x ∈ t'.dropLast := dropLast_drop_subset t' n hx
    cases ht' : t' with
    | nil =>
      rw [ht'] at hx'
      simp at hx'
    | cons b t'' =>
      rw [ht'] at hx'
      rw [List.dropLast_cons₂]
      exact List.mem_cons_of_mem a hx'

lemma take_subset_dropLast (j : Nat) (t : List α) (h : j < t.length) :
    t.take j ⊆ t.dropLast := by
  intro x hx
  rw [List.dropLast_eq_take]
  have heq : t.take j = (t.take (t.length - 1)).take j := by
    rw [List.take_take]
    congr 1
    omega
  rw [heq] at hx
  exact List.take_subset _ _ hx

lemma chunkList_dropLast_subset (k : Nat) :
    ∀ (xs : List α), ∀ c ∈ chunkList k xs, ∀ x ∈ c.dropLast, x ∈ xs.dropLast
  | [], c, hc => by simp [chunkList_nil] at hc
  | x0 :: t, c, hc => by
    rw [chunkList_cons_eq, List.mem_cons] at hc
    rcases hc with rfl | hmem
    · intro x hx
      by_cases hrest : t.drop (max 1 k - 1) = []
      · have htake : t.take (max 1 k - 1) = t := by
          have hle : t.length ≤ max 1 k - 1 := by
            by_contra hcon
            push_neg at hcon
            have : (t.drop (max 1 k - 1)).length = 0 := by
              rw [hrest]
              rfl
            rw [List.length_drop] at this
            omega
          exact List.take_of_length_le hle
        rw [htake] at hx
        exact hx
      · have hlen : max 1 k - 1 < t.length := by
          by_contra hcon
          push_neg at hcon
          rw [List.drop_eq_nil_of_le hcon] at hrest
          exact hrest rfl
        have hx' : x ∈ x0 :: t.take (max 1 k - 1) :=
          List.dropLast_subset _ hx
        have ht' : t ≠ [] := by
          intro h
          rw [h] at hlen
          simp at hlen
        obtain ⟨b, t'', rfl⟩ := List.exists_cons_of_ne_nil ht'
        rw [List.dropLast_cons₂]
        rcases List.mem_cons.mp hx' with rfl | hx''
        · exact List.mem_cons_self _ _
        · exact List.mem_cons_of_mem _
            (take_subset_dropLast _ _ hlen hx'')
    · intro x hx
      have hx1 := chunkList_dropLast_subset k (t.drop (max 1 k - 1)) c hmem x hx
      have hx2 : x ∈ t.dropLast := dropLast_drop_subset t (max 1 k - 1) hx1
      cases ht : t with
      | nil =>
        rw [ht] at hx2
        simp at hx2
      | cons b t'' =>
        rw [ht] at hx2
        rw [List.dropLast_cons₂]
        exact List.mem_cons_of_mem _ hx2
termination_by xs => xs.length
decreasing_by
  simp only [List.length_cons, List.length_drop]
  omega

lemma sentenceSplitAux_no_terminal (ws : List TimedWord) :
    ∀ cur, (∀ w ∈ cur, is_end_token w.text = false) →
      ∀ s ∈ sentenceSplitAux cur ws, ∀ w ∈ s.dropLast,
        is_end_token w.text = false := by
  induction ws with
  | nil =>
    intro cur hcur s hs w hw
    rw [sentenceSplitAux] at hs
    by_cases h : cur.isEmpty
    · simp [h] at hs
    · rw [if_neg h, List.mem_singleton] at hs
      subst hs
      exact hcur w (List.dropLast_subset _ hw)
  | cons w0 ws ih =>
    intro cur hcur s hs w hw
    rw [sentenceSplitAux] at hs
    by_cases h : is_end_token w0.text
    · rw [if_pos h, List.mem_cons] at hs
      rcases hs with rfl | hs
      · rw [List.dropLast_concat] at hw
        exact hcur w hw
      · exact ih [] (by simp) s hs w hw
    · rw [if_neg h] at hs
      have hcur' : ∀ x ∈ cur ++ [w0], is_end_token x.text = false := by
        intro x hx
        rcases List.mem_append.mp hx with hx | hx
        · exact hcur x hx
        · rw [List.mem_singleton] at hx
          subst hx
          simp at h
          exact h
      exact ih (cur ++ [w0]) hcur' s hs w hw

/-- Modelled from the claim's wording: the sentence-terminal test WITHOUT
the ellipsis token — a terminal `.`, `?` or `!`, optionally followed by a
closing quote.  (The source's `is_end_token` additionally treats `…` as a
terminal; since every claim-terminal is also a code-terminal, events
still never span a claim-sentence boundary.) -/
def isSpecTerminal (tok : String) : Bool :=
  let t := pyStrip tok
  t = "." || t = "?" || t = "!" || t = ".”" || t = "!”" || t = "?”"

lemma isSpecTerminal_imp (tok : String) (h : isSpecTerminal tok = true) :
    is_end_token tok = true := by
  unfold isSpecTerminal at h
  unfold is_end_token
  simp only [Bool.or_eq_true, decide_eq_true_eq] at h ⊢
  tauto

/-- C7: sentence-bounded chunking never produces an event whose token
span crosses a sentence-terminal boundary: within every chunk underlying
an emitted event, no word except possibly the last is a sentence terminal
(terminal punctuation `.`, `?`, `!`, optionally followed by a closing
quote), and the chunks concatenate back to the input — every input word
appears in exactly one event with input order preserved. -/
theorem C7_sentence_bounded (words : List TimedWord) (m : Nat) :
    words_to_sentence_chunk_events words m =
      (sentenceChunksOf m words).map mkSentEvent ∧
    (sentenceChunksOf m words).flatten = words ∧
    ∀ c ∈ sentenceChunksOf m words, ∀ w ∈ c.dropLast,
      isSpecTerminal w.text = false := by
  refine ⟨rfl, sentenceChunksOf_flatten m words, ?_⟩
  intro c hc w hw
  rw [sentenceChunksOf, List.mem_flatten] at hc
  obtain ⟨chunks, hchunks, hcmem⟩ := hc
  rw [List.mem_map] at hchunks
  obtain ⟨sent, hsent, rfl⟩ := hchunks
  have hw1 : w ∈ sent.dropLast := chunkList_dropLast_subset m sent c hcmem w hw
  rw [sentenceSplit] at hsent
  have hterm : is_end_token w.text = false :=
    sentenceSplitAux_no_terminal words [] (by simp) sent hsent w hw1
  by_contra hcon
  rw [Bool.not_eq_false] at hcon
  rw [isSpecTerminal_imp w.text hcon] at hterm
  exact absurd hterm (by simp)

/-- C7 witness: `C7_sentence_bounded` on the words
`[("a",0,1), (".",1,1), ("b",2,3)]`: the chunks concatenate back to the
input, and in the chunk `[("a",0,1), (".",1,1)]` the non-final word "a"
is not a sentence terminal. -/
theorem C7_witness :
    (sentenceChunksOf 7 [⟨"a", 0, 1⟩, ⟨".", 1, 1⟩, ⟨"b", 2, 3⟩]).flatten =
      [⟨"a", 0, 1⟩, ⟨".", 1, 1⟩, ⟨"b", 2, 3⟩] ∧
    isSpecTerminal (TimedWord.text ⟨"a", 0, 1⟩) = false := by
  have h := C7_sentence_bounded [⟨"a", 0, 1⟩, ⟨".", 1, 1⟩, ⟨"b", 2, 3⟩] 7
  have hc : ([⟨"a", 0, 1⟩, ⟨".", 1, 1⟩] : List TimedWord) ∈
      sentenceChunksOf 7 [⟨"a", 0, 1⟩, ⟨".", 1, 1⟩, ⟨"b", 2, 3⟩] := by
    simp +decide [sentenceChunksOf, sentenceSplit, sentenceSplitAux,
      chunkList, is_end_token, pyStrip]
  have hw : (⟨"a", 0, 1⟩ : TimedWord) ∈
      ([⟨"a", 0, 1⟩, ⟨".", 1, 1⟩] : List TimedWord).dropLast := by
    simp
  exact ⟨h.2.1, h.2.2 _ hc _ hw⟩

/-- Modelled from the spec: a closing quote character that may stand
between the terminal punctuation and the whitespace at a sentence
boundary. -/
def isClosingQuote (c : Char) : Bool :=
  c = '”' || c = '’' || c = dquote

/-- Modelled from the spec: scanner for the claim's sentence boundary —
a terminal `.`, `!` or `?`, optionally followed by a closing quote
character, followed by whitespace.  Identical to `regexSplitAux` except
that the lookbehind also accepts terminal-then-closing-quote; used only
to exhibit where the code's regex (which has no quote allowance)
diverges from the claim. -/
def specSplitAux (cur : List Char) : List Char → List String
  | [] => [String.mk cur.reverse]
  | c :: cs =>
    if c.isWhitespace &&
        (match cur with
         | p :: rest =>
           isSentSplitPunct p ||
             (isClosingQuote p &&
               (match rest with
                | q :: _ => isSentSplitPunct q
                | [] => false))
         | [] => false) then
      String.mk cur.reverse :: specSplitAux [] (cs.dropWhile Char.isWhitespace)
    else
      specSplitAux (c :: cur) cs
termination_by l => l.length
decreasing_by
  · have := (List.dropWhile_sublist (l := cs) Char.isWhitespace).length_le
    simp only [List.length_cons]
    omega
  · simp

/-- Modelled from the spec: the claim's sentence splitter — boundary with
the closing-quote allowance, then the same short-fragment merge. -/
def spec_split_into_sentences (text : String) : List String :=
  let t := pyStrip text
  if t.data.isEmpty then []
  else (specSplitAux [] t.data).foldl mergeShortStep []

/-- C8 counterexample: on `Hello?” World okay.` the claim's boundary rule
(terminal punctuation optionally followed by a closing quote, then
whitespace) splits after `?”`, giving two sentences, but the code's regex
`(?<=[.!?])\s+` has no closing-quote allowance, so the code returns the
whole text as one sentence. -/
theorem C8_counterexample :
    _split_into_sentences "Hello?” World okay." =
      ["Hello?” World okay."] ∧
    spec_split_into_sentences "Hello?” World okay." =
      ["Hello?”", "World okay."] ∧
    _split_into_sentences "Hello?” World okay." ≠
      spec_split_into_sentences "Hello?” World okay." := by
  refine ⟨?_, ?_, ?_⟩
  · simp +decide [_split_into_sentences, regexSplitAux, mergeShortStep,
      pyStrip, isSentSplitPunct]
  · simp +decide [spec_split_into_sentences, specSplitAux, mergeShortStep,
      pyStrip, isSentSplitPunct, isClosingQuote, dquote]
  · simp +decide [_split_into_sentences, spec_split_into_sentences,
      regexSplitAux, specSplitAux, mergeShortStep, pyStrip,
      isSentSplitPunct, isClosingQuote, dquote]

lemma mergeShort_tail_ge (parts : List String) :
    ∀ acc, (∀ s ∈ acc.tail, 10 ≤ s.length) →
      ∀ s ∈ (parts.foldl mergeShortStep acc).tail, 10 ≤ s.length := by
  induction parts with
  | nil =>
    intro acc hacc
    exact hacc
  | cons p parts ih =>
    intro acc hacc
    rw [List.foldl_cons]
    apply ih
    intro s hs
    unfold mergeShortStep at hs
    cases hlast : acc.getLast? with
    | none =>
      rw [hlast] at hs
      simp at hs
    | some lastS =>
      simp only [hlast] at hs
      by_cases hlen : p.length < 10
      · rw [if_pos hlen] at hs
        cases acc with
        | nil => simp at hlast
        | cons a acc' =>
          cases acc' with
          | nil => simp at hs
          | cons b t =>
            have hlastmem : lastS ∈ b :: t := by
              rw [List.getLast?_cons_cons] at hlast
              exact List.mem_of_getLast?_eq_some hlast
            have hlastlen : 10 ≤ lastS.length := hacc lastS hlastmem
            rw [List.dropLast_cons₂, List.cons_append, List.tail_cons] at hs
            rcases List.mem_append.mp hs with hx | hx
            · exact hacc s (List.dropLast_subset _ hx)
            · rw [List.mem_singleton] at hx
              subst hx
              rw [String.length_append, String.length_append]
              omega
      · rw [if_neg hlen] at hs
        push_neg at hlen
        cases acc with
        | nil => simp at hlast
        | cons a acc' =>
          rw [List.cons_append, List.tail_cons] at hs
          rcases List.mem_append.mp hs with hx | hx
          · exact hacc s hx
          · rw [List.mem_singleton] at hx
            subst hx
            exact hlen

lemma regexSplitAux_no_punct :
    ∀ (cs cur : List Char), (∀ c ∈ cs, isSentSplitPunct c = false) →
      (∀ c ∈ cur, isSentSplitPunct c = false) →
      regexSplitAux cur cs = [String.mk (cur.reverse ++ cs)] := by
  intro cs
  induction cs with
  | nil =>
    intro cur _ _
    simp only [regexSplitAux]
    simp
  | cons c cs ih =>
    intro cur hcs hcur
    have hcs' : ∀ x ∈ cs, isSentSplitPunct x = false :=
      fun x hx => hcs x (List.mem_cons_of_mem c hx)
    have hcurc : ∀ x ∈ c :: cur, isSentSplitPunct x = false := by
      intro x hx
      rcases List.mem_cons.mp hx with rfl | hx
      · exact hcs x (List.mem_cons_self x cs)
      · exact hcur x hx
    cases cur with
    | nil =>
      have hunfold : regexSplitAux [] (c :: cs) = regexSplitAux [c] cs := by
        rw [regexSplitAux.eq_def]
        simp
      rw [hunfold, ih [c] hcs' (by simpa using hcurc)]
      simp
    | cons p rest =>
      have hp : isSentSplitPunct p = false := hcur p (List.mem_cons_self p rest)
      have hunfold : regexSplitAux (p :: rest) (c :: cs) =
          regexSplitAux (c :: p :: rest) cs := by
        rw [regexSplitAux.eq_def]
        simp [hp]
      rw [hunfold, ih (c :: p :: rest) hcs' hcurc]
      simp

/-- C8 (amended): the sentence splitter splits raw text at whitespace
immediately preceded by a terminal '.', '!' or '?' — a closing quote
between the terminal and the whitespace suppresses the boundary, unlike
the claim's rule — and merges any resulting fragment shorter than 10
characters into the previous sentence, so every returned sentence except
possibly the first has at least 10 characters; a text without any
terminal punctuation is returned whole; and on "Hello there. Ok." it
yields exactly the one sentence "Hello there. Ok." because the
3-character fragment "Ok." is merged into the prior sentence. -/
theorem C8_amended :
    _split_into_sentences "Hello there. Ok." = ["Hello there. Ok."] ∧
    (∀ text : String, ∀ s ∈ (_split_into_sentences text).tail,
      10 ≤ s.length) ∧
    (∀ text : String, (pyStrip text).data ≠ [] →
      (∀ c ∈ (pyStrip text).data, isSentSplitPunct c = false) →
      _split_into_sentences text = [pyStrip text]) := by
  refine ⟨?_, ?_, ?_⟩
  · simp +decide [_split_into_sentences, regexSplitAux, mergeShortStep,
      pyStrip, isSentSplitPunct]
  · intro text s hs
    unfold _split_into_sentences at hs
    by_cases h : (pyStrip text).data.isEmpty
    · simp [h] at hs
    · rw [if_neg (by simp [h])] at hs
      exact mergeShort_tail_ge _ [] (by simp) s hs
  · intro text hne hnp
    unfold _split_into_sentences
    rw [if_neg (by simp [List.isEmpty_iff, hne])]
    rw [regexSplitAux_no_punct (pyStrip text).data [] hnp (by simp)]
    simp only [List.reverse_nil, List.nil_append, List.foldl_cons,
      List.foldl_nil]
    rfl

/-- C8 witness: `C8_amended` instantiated — the scenario sentence, a
concrete tail-length consequence, and the no-terminal case on "hi there"
(returned whole). -/
theorem C8_witness :
    _split_into_sentences "Hello there. Ok." = ["Hello there. Ok."] ∧
    (∀ s ∈ (_split_into_sentences "Hello there. Ok.").tail, 10 ≤ s.length) ∧
    _split_into_sentences "hi there" = [pyStrip "hi there"] := by
  refine ⟨C8_amended.1, fun s hs => C8_amended.2.1 "Hello there. Ok." s hs, ?_⟩
  exact C8_amended.2.2 "hi there" (by decide) (by decide)
